import Mathlib

/-!
A shallow embedding of `hangman.py` (Evil Hangman) and proofs about it.

Words are lists of characters; a letter's occurrence pattern in a word is
the list of zero-based indices where the letter occurs, in increasing order,
exactly as computed by `[i for i, c in enumerate(word) if ltr == c]`.

`updateWords` models `update_words`: words are grouped by pattern in
first-occurrence (dict insertion) order, the groups of maximal size are kept,
stably sorted by the number of occurrence positions, and `random.choice` over
that sorted list is modelled by an arbitrary index `c` taken modulo the list
length.  The turn loop of `play` is modelled by `turn` / `runSession`.
-/

namespace EvilHangman

abbrev Word := List Char
abbrev Pattern := List Nat

/-- `[i for i, c in enumerate(word) if ltr == c]`, starting the index at `i`. -/
def occIdxsFrom (ltr : Char) : Nat → Word → Pattern
  | _, [] => []
  | i, ch :: rest =>
      if ltr = ch then i :: occIdxsFrom ltr (i + 1) rest
      else occIdxsFrom ltr (i + 1) rest

/-- The occurrence pattern of `ltr` in `w` (hangman.py line 86). -/
def occIdxs (ltr : Char) (w : Word) : Pattern :=
  occIdxsFrom ltr 0 w

/-- Distinct elements of a list, in order of first occurrence; this is the
key-insertion order of the `collections.defaultdict` built on lines 83-87. -/
def dedupFirst : List Pattern → List Pattern
  | [] => []
  | k :: ks => k :: (dedupFirst ks).filter (fun x => x != k)

/-- The family keys (patterns) in dict insertion order. -/
def familyKeys (ltr : Char) (ws : List Word) : List Pattern :=
  dedupFirst (ws.map (occIdxs ltr))

/-- The family of `k`: all words whose pattern is `k`, in input order. -/
def family (ltr : Char) (ws : List Word) (k : Pattern) : List Word :=
  ws.filter (fun w => occIdxs ltr w == k)

/-- The `families` dict as an association list in insertion order. -/
def families (ltr : Char) (ws : List Word) : List (Pattern × List Word) :=
  (familyKeys ltr ws).map (fun k => (k, family ltr ws k))

/-- `max(len(f_words) for f_words in families.values())` (line 92); the
Python `max` raises on an empty candidate list, which is handled separately
in `turn` via the `crash` result. -/
def longestFamLen (ltr : Char) (ws : List Word) : Nat :=
  ((families ltr ws).map (fun f => f.2.length)).foldr max 0

/-- Families whose size is maximal (lines 97-100). -/
def longestFams (ltr : Char) (ws : List Word) : List (Pattern × List Word) :=
  (families ltr ws).filter (fun f => f.2.length == longestFamLen ltr ws)

/-- Stable insertion into a list sorted by pattern length (ties keep the
existing element first). -/
def insertByPatLen (a : Pattern × List Word) :
    List (Pattern × List Word) → List (Pattern × List Word)
  | [] => [a]
  | b :: bs =>
      if a.1.length < b.1.length then a :: b :: bs
      else b :: insertByPatLen a bs

/-- `sorted(longest_fams, key=lambda f: len(f[0]))`: a stable sort by the
number of occurrence positions of the family's pattern (line 105). -/
def sortByPatLen (l : List (Pattern × List Word)) : List (Pattern × List Word) :=
  l.foldl (fun acc a => insertByPatLen a acc) []

/-- `fams_with_fewest_match`, the list handed to `random.choice` (line 109). -/
def updateWordsChoices (ltr : Char) (ws : List Word) : List (Pattern × List Word) :=
  sortByPatLen (longestFams ltr ws)

/-- `update_words(legal_words, ltr)` together with the pattern of the chosen
family; the draw of `random.choice` is modelled by the index `c % length`. -/
def updateWords (ltr : Char) (ws : List Word) (c : Nat) : Pattern × List Word :=
  (updateWordsChoices ltr ws).getD (c % (updateWordsChoices ltr ws).length) ([], [])

/-- Python `str.lower`, character by character. -/
def pyLower (w : Word) : Word := w.map Char.toLower

/-- Python `str.isalpha`: non-empty and all alphabetic. -/
def pyIsAlpha (w : Word) : Bool := !w.isEmpty && w.all (fun ch => ch.isAlpha)

/-- The filtering comprehension of `get_words` (line 56):
`[w.lower() for w in words if w.isalpha() and len(w) == word_len]`. -/
def get_words (wordLen : Nat) (raw : List Word) : List Word :=
  (raw.filter (fun w => pyIsAlpha w && w.length == wordLen)).map pyLower

/-- The mutable state of the `play` loop: candidate words, guessed letters
(in insertion order), remaining guesses (`nguesses_left`, a Python int, so
unbounded and possibly negative), and whether the loop has terminated
(`none` = still playing, `some true` = won, `some false` = lost). -/
structure GameState where
  words : List Word
  guessed : List Char
  nleft : Int
  outcome : Option Bool
deriving DecidableEq

/-- The result of one iteration of the `play` loop body on a given input. -/
inductive TurnResult where
  /-- `len(ltr) != 1`: rejected with a message, loop continues unchanged. -/
  | tooLong : TurnResult
  /-- `ltr in guessed_letters`: rejected with a message, loop continues unchanged. -/
  | already : TurnResult
  /-- `update_words` raised `ValueError` (`max()` over no families). -/
  | crash : TurnResult
  /-- The guess was accepted; `hit` is `ltr in word`, `pat` the chosen
  family's pattern, and `st` the state after the iteration. -/
  | next (hit : Bool) (l : Char) (pat : Pattern) (st : GameState) : TurnResult
deriving DecidableEq

/-- The state update of lines 146-169 for an accepted guess `l`. -/
def applyGuess (st : GameState) (l : Char) (c : Nat) : GameState :=
  if l ∈ (updateWords l st.words c).2.headD [] then
    { words := (updateWords l st.words c).2
      guessed := st.guessed ++ [l]
      nleft := st.nleft
      outcome :=
        if ((updateWords l st.words c).2.headD []).all
            (fun ch => (st.guessed ++ [l]).contains ch) then some true else none }
  else
    { words := (updateWords l st.words c).2
      guessed := st.guessed ++ [l]
      nleft := st.nleft - 1
      outcome := if st.nleft - 1 = 0 then some false else none }

/-- One iteration of the `play` loop body (lines 136-169): lowercase the
input, reject non-single-character input, reject repeats, then accept. -/
def turn (st : GameState) (inp : Word) (c : Nat) : TurnResult :=
  if (pyLower inp).length ≠ 1 then .tooLong
  else if (pyLower inp).headD ' ' ∈ st.guessed then .already
  else if st.words = [] then .crash
  else
    .next
      (decide ((pyLower inp).headD ' ' ∈
        (updateWords ((pyLower inp).headD ' ') st.words c).2.headD []))
      ((pyLower inp).headD ' ')
      (updateWords ((pyLower inp).headD ' ') st.words c).1
      (applyGuess st ((pyLower inp).headD ' ') c)

/-- A session state together with the ghost record of each accepted guess
and the occurrence pattern the Partitioner returned for it. -/
structure Session where
  game : GameState
  recs : List (Char × Pattern)
deriving DecidableEq

/-- Run the `play` loop over a list of (input, random draw) pairs.  The loop
stops at a terminal outcome (the Python `break`); a rejected input leaves the
state unchanged (the Python `continue`); a crash aborts the session. -/
def runSession : Session → List (Word × Nat) → Session
  | s, [] => s
  | s, (inp, c) :: rest =>
      if s.game.outcome ≠ none then s
      else
        match turn s.game inp c with
        | .next _ l pat st' => runSession ⟨st', s.recs ++ [(l, pat)]⟩ rest
        | .crash => s
        | .tooLong => runSession s rest
        | .already => runSession s rest

/-- The session at the top of the `play` loop: full candidate list, no
guessed letters, the configured number of guesses. -/
def initSession (ws : List Word) (n : Int) : Session :=
  ⟨⟨ws, [], n, none⟩, []⟩

/-- Every candidate word carries every recorded guessed letter at exactly
the recorded occurrence positions. -/
def Consistent (s : Session) : Prop :=
  ∀ r ∈ s.recs, ∀ w ∈ s.game.words, occIdxs r.1 w = r.2

/-! Concrete words used in the spec's Scenario A and in witnesses. -/

def wFOO : Word := ['f', 'o', 'o']
def wOFF : Word := ['o', 'f', 'f']
def wMOO : Word := ['m', 'o', 'o']
def wORE : Word := ['o', 'r', 'e']
def wCAT : Word := ['c', 'a', 't']
def wDOG : Word := ['d', 'o', 'g']

def exWords : List Word := [wFOO, wOFF, wMOO, wORE, wCAT, wDOG]


/-! ### Helper lemmas: occurrence patterns -/

theorem occIdxsFrom_eq_nil_iff (ltr : Char) (w : Word) :
    ∀ i, occIdxsFrom ltr i w = [] ↔ ltr ∉ w := by
  induction w with
  | nil => intro i; simp [occIdxsFrom]
  | cons ch rest ih =>
    intro i
    by_cases h : ltr = ch
    · simp [occIdxsFrom, h]
    · simp [occIdxsFrom, h, ih (i + 1), Ne.symm h]

theorem occIdxs_eq_nil_iff (ltr : Char) (w : Word) :
    occIdxs ltr w = [] ↔ ltr ∉ w :=
  occIdxsFrom_eq_nil_iff ltr w 0

/-! ### Helper lemmas: deduplication and grouping -/

theorem mem_dedupFirst {x : Pattern} : ∀ {l : List Pattern}, x ∈ dedupFirst l ↔ x ∈ l := by
  intro l
  induction l with
  | nil => simp [dedupFirst]
  | cons k ks ih =>
    by_cases hx : x = k
    · simp [dedupFirst, hx]
    · simp [dedupFirst, hx, List.mem_filter, ih]

theorem dedupFirst_nodup : ∀ (l : List Pattern), (dedupFirst l).Nodup := by
  intro l
  induction l with
  | nil => simp [dedupFirst]
  | cons k ks ih =>
    rw [dedupFirst, List.nodup_cons]
    refine ⟨?_, ih.filter _⟩
    simp [List.mem_filter]

theorem dedupFirst_ne_nil {l : List Pattern} (h : l ≠ []) : dedupFirst l ≠ [] := by
  cases l with
  | nil => exact absurd rfl h
  | cons k ks => simp [dedupFirst]

theorem dedupFirst_const {l : List Pattern} {k : Pattern}
    (hall : ∀ x ∈ l, x = k) (hne : l ≠ []) : dedupFirst l = [k] := by
  cases l with
  | nil => exact absurd rfl hne
  | cons a t =>
    have ha : a = k := hall a (by simp)
    rw [dedupFirst, ha]
    have : (dedupFirst t).filter (fun x => x != k) = [] := by
      rw [List.filter_eq_nil_iff]
      intro x hx
      have : x = k := hall x (by simp [mem_dedupFirst.mp hx])
      simp [this]
    rw [this]

theorem mem_family {ltr : Char} {ws : List Word} {k : Pattern} {w : Word} :
    w ∈ family ltr ws k ↔ w ∈ ws ∧ occIdxs ltr w = k := by
  simp [family, List.mem_filter]

theorem family_sublist (ltr : Char) (ws : List Word) (k : Pattern) :
    (family ltr ws k).Sublist ws :=
  List.filter_sublist ws

theorem pattern_mem_familyKeys {ltr : Char} {ws : List Word} {w : Word} (hw : w ∈ ws) :
    occIdxs ltr w ∈ familyKeys ltr ws := by
  rw [familyKeys, mem_dedupFirst]
  exact List.mem_map_of_mem _ hw

theorem exists_word_of_mem_familyKeys {ltr : Char} {ws : List Word} {k : Pattern}
    (hk : k ∈ familyKeys ltr ws) : ∃ w ∈ ws, occIdxs ltr w = k := by
  rw [familyKeys, mem_dedupFirst, List.mem_map] at hk
  obtain ⟨w, hw, hwk⟩ := hk
  exact ⟨w, hw, hwk⟩

theorem familyKeys_nodup (ltr : Char) (ws : List Word) : (familyKeys ltr ws).Nodup :=
  dedupFirst_nodup _

theorem familyKeys_ne_nil {ltr : Char} {ws : List Word} (h : ws ≠ []) :
    familyKeys ltr ws ≠ [] := by
  apply dedupFirst_ne_nil
  simp [h]

theorem family_ne_nil {ltr : Char} {ws : List Word} {k : Pattern}
    (hk : k ∈ familyKeys ltr ws) : family ltr ws k ≠ [] := by
  obtain ⟨w, hw, hwk⟩ := exists_word_of_mem_familyKeys hk
  exact List.ne_nil_of_mem (mem_family.mpr ⟨hw, hwk⟩)

theorem mem_families {ltr : Char} {ws : List Word} {f : Pattern × List Word} :
    f ∈ families ltr ws ↔ f.1 ∈ familyKeys ltr ws ∧ f.2 = family ltr ws f.1 := by
  constructor
  · intro hf
    rw [families, List.mem_map] at hf
    obtain ⟨k, hk, hkf⟩ := hf
    cases hkf
    exact ⟨hk, rfl⟩
  · intro ⟨h1, h2⟩
    rw [families, List.mem_map]
    exact ⟨f.1, h1, by rw [← h2]⟩

theorem families_length (ltr : Char) (ws : List Word) :
    (families ltr ws).length = (familyKeys ltr ws).length := by
  simp [families]

theorem families_ne_nil {ltr : Char} {ws : List Word} (h : ws ≠ []) :
    families ltr ws ≠ [] := by
  rw [families]
  simp [familyKeys_ne_nil h]

/-! ### Helper lemmas: the maximum family size -/

theorem le_foldrMax {x : Nat} : ∀ {l : List Nat}, x ∈ l → x ≤ l.foldr max 0 := by
  intro l
  induction l with
  | nil => intro h; cases h
  | cons a t ih =>
    intro h
    rcases List.mem_cons.mp h with rfl | h
    · exact le_max_left _ _
    · exact le_trans (ih h) (le_max_right _ _)

theorem foldrMax_mem : ∀ {l : List Nat}, l ≠ [] → l.foldr max 0 ∈ l := by
  intro l
  induction l with
  | nil => intro h; exact absurd rfl h
  | cons a t ih =>
    intro _
    cases t with
    | nil => simp
    | cons b u =>
      rcases le_total ((b :: u).foldr max 0) a with h | h
      · rw [List.foldr_cons, max_eq_left h]; simp
      · rw [List.foldr_cons, max_eq_right h]
        exact List.mem_cons_of_mem _ (ih (by simp))

theorem length_le_longestFamLen {ltr : Char} {ws : List Word}
    {f : Pattern × List Word} (hf : f ∈ families ltr ws) :
    f.2.length ≤ longestFamLen ltr ws :=
  le_foldrMax (List.mem_map_of_mem _ hf)

theorem exists_longestFam {ltr : Char} {ws : List Word} (h : ws ≠ []) :
    ∃ f ∈ families ltr ws, f.2.length = longestFamLen ltr ws := by
  have hmem : longestFamLen ltr ws ∈ (families ltr ws).map (fun f => f.2.length) := by
    apply foldrMax_mem
    simp [families_ne_nil h]
  rw [List.mem_map] at hmem
  obtain ⟨f, hf, hfl⟩ := hmem
  exact ⟨f, hf, hfl⟩

theorem mem_longestFams {ltr : Char} {ws : List Word} {f : Pattern × List Word} :
    f ∈ longestFams ltr ws ↔
      f ∈ families ltr ws ∧ f.2.length = longestFamLen ltr ws := by
  simp [longestFams, List.mem_filter]

theorem longestFams_ne_nil {ltr : Char} {ws : List Word} (h : ws ≠ []) :
    longestFams ltr ws ≠ [] := by
  obtain ⟨f, hf, hfl⟩ := @exists_longestFam ltr ws h
  exact List.ne_nil_of_mem (mem_longestFams.mpr ⟨hf, hfl⟩)

/-! ### Helper lemmas: the stable sort and the random choice -/

theorem mem_insertByPatLen {x a : Pattern × List Word} :
    ∀ {l : List (Pattern × List Word)}, x ∈ insertByPatLen a l ↔ x = a ∨ x ∈ l := by
  intro l
  induction l with
  | nil => simp [insertByPatLen]
  | cons b bs ih =>
    by_cases h : a.1.length < b.1.length
    · simp [insertByPatLen, h]
    · simp only [insertByPatLen, if_neg h, List.mem_cons, ih]
      tauto

theorem mem_sortByPatLen {x : Pattern × List Word} {l : List (Pattern × List Word)} :
    x ∈ sortByPatLen l ↔ x ∈ l := by
  have key : ∀ (l acc : List (Pattern × List Word)),
      x ∈ l.foldl (fun acc a => insertByPatLen a acc) acc ↔ x ∈ acc ∨ x ∈ l := by
    intro l
    induction l with
    | nil => simp
    | cons a t ih =>
      intro acc
      rw [List.foldl_cons, ih, mem_insertByPatLen]
      simp only [List.mem_cons]
      tauto
  rw [sortByPatLen, key]
  simp

theorem sortByPatLen_ne_nil {l : List (Pattern × List Word)} (h : l ≠ []) :
    sortByPatLen l ≠ [] := by
  obtain ⟨x, hx⟩ := List.exists_mem_of_ne_nil l h
  exact List.ne_nil_of_mem (mem_sortByPatLen.mpr hx)

theorem getD_mem : ∀ (l : List (Pattern × List Word)) (n : Nat)
    (d : Pattern × List Word), n < l.length → l.getD n d ∈ l := by
  intro l
  induction l with
  | nil => intro n d h; simp at h
  | cons a t ih =>
    intro n d h
    cases n with
    | zero => simp
    | succ m =>
      have : m < t.length := by simpa using h
      exact List.mem_cons_of_mem _ (ih m d this)

theorem updateWords_mem_choices {ltr : Char} {ws : List Word} (c : Nat) (h : ws ≠ []) :
    updateWords ltr ws c ∈ updateWordsChoices ltr ws := by
  have hne : updateWordsChoices ltr ws ≠ [] :=
    sortByPatLen_ne_nil (longestFams_ne_nil h)
  have hpos : 0 < (updateWordsChoices ltr ws).length := List.length_pos.mpr hne
  exact getD_mem _ _ _ (Nat.mod_lt _ hpos)

/-- The core characterization of `update_words`: for a non-empty candidate
list, the chosen pair is a maximal-size family of the pattern partition. -/
theorem updateWords_spec {ltr : Char} {ws : List Word} (c : Nat) (h : ws ≠ []) :
    (updateWords ltr ws c).1 ∈ familyKeys ltr ws ∧
    (updateWords ltr ws c).2 = family ltr ws (updateWords ltr ws c).1 ∧
    (updateWords ltr ws c).2.length = longestFamLen ltr ws := by
  have hmem := @updateWords_mem_choices ltr ws c h
  rw [updateWordsChoices, mem_sortByPatLen, mem_longestFams] at hmem
  obtain ⟨hfam, hlen⟩ := hmem
  rw [mem_families] at hfam
  exact ⟨hfam.1, hfam.2, hlen⟩

theorem updateWords_snd_ne_nil {ltr : Char} {ws : List Word} (c : Nat) (h : ws ≠ []) :
    (updateWords ltr ws c).2 ≠ [] := by
  obtain ⟨hk, hfam, _⟩ := @updateWords_spec ltr ws c h
  rw [hfam]
  exact family_ne_nil hk

/-! ### Helper lemmas: strict shrinking -/

theorem length_filter_lt {p : Word → Bool} {l : List Word} {x : Word}
    (hx : x ∈ l) (hpx : p x = false) : (l.filter p).length < l.length := by
  induction l with
  | nil => cases hx
  | cons a t ih =>
    rcases List.mem_cons.mp hx with rfl | hx
    · rw [List.filter_cons, hpx]
      simp only [List.length_cons]
      exact Nat.lt_succ_of_le (List.filter_sublist t).length_le
    · rw [List.filter_cons]
      rcases hpa : p a with _ | _
      · simpa using Nat.lt_succ_of_lt (ih hx)
      · simpa using Nat.succ_lt_succ (ih hx)

theorem exists_mem_ne {l : List Pattern} (hnd : l.Nodup) (hl : 1 < l.length)
    (k : Pattern) : ∃ x ∈ l, x ≠ k := by
  match l, hl with
  | a :: b :: t, _ =>
    have hab : a ≠ b := by
      rw [List.nodup_cons] at hnd
      exact fun h => hnd.1 (h ▸ List.mem_cons_self b t)
    by_cases ha : a = k
    · exact ⟨b, by simp, fun hb => hab (by rw [ha, hb])⟩
    · exact ⟨a, by simp, ha⟩

theorem updateWords_length_lt {ltr : Char} {ws : List Word} (c : Nat) (h : ws ≠ [])
    (hmany : 1 < (families ltr ws).length) :
    (updateWords ltr ws c).2.length < ws.length := by
  obtain ⟨hk, hfam, _⟩ := @updateWords_spec ltr ws c h
  rw [families_length] at hmany
  obtain ⟨k', hk', hne⟩ :=
    exists_mem_ne (familyKeys_nodup ltr ws) hmany (updateWords ltr ws c).1
  obtain ⟨w', hw', hwk'⟩ := exists_word_of_mem_familyKeys hk'
  rw [hfam, family]
  apply length_filter_lt hw'
  simp [hwk', hne]

/-! ### Helper lemmas: the turn function -/

theorem eq_singleton_headD {l : Word} (d : Char) (h : l.length = 1) :
    l = [l.headD d] := by
  cases l with
  | nil => simp at h
  | cons a t =>
    cases t with
    | nil => rfl
    | cons b u => simp at h

theorem applyGuess_words (st : GameState) (l : Char) (c : Nat) :
    (applyGuess st l c).words = (updateWords l st.words c).2 := by
  unfold applyGuess
  split <;> rfl

theorem applyGuess_guessed (st : GameState) (l : Char) (c : Nat) :
    (applyGuess st l c).guessed = st.guessed ++ [l] := by
  unfold applyGuess
  split <;> rfl

theorem applyGuess_nleft_outcome (st : GameState) (l : Char) (c : Nat)
    (h : st.nleft ≤ 0) :
    (applyGuess st l c).nleft ≤ 0 ∧ (applyGuess st l c).outcome ≠ some false := by
  unfold applyGuess
  split
  · refine ⟨h, ?_⟩
    split <;> simp
  · refine ⟨show st.nleft - 1 ≤ 0 by omega, ?_⟩
    have hne : st.nleft - 1 ≠ 0 := by omega
    show (if st.nleft - 1 = 0 then some false else none) ≠ some false
    rw [if_neg hne]
    simp

/-- Inversion for an accepted turn: what the loop body did. -/
theorem turn_next_inv {st : GameState} {inp : Word} {c : Nat} {hit : Bool}
    {l : Char} {pat : Pattern} {st' : GameState}
    (h : turn st inp c = .next hit l pat st') :
    pyLower inp = [l] ∧ l ∉ st.guessed ∧ st.words ≠ [] ∧
    pat = (updateWords l st.words c).1 ∧ st' = applyGuess st l c := by
  by_cases h1 : (pyLower inp).length ≠ 1
  · rw [turn, if_pos h1] at h
    exact TurnResult.noConfusion h
  · by_cases h2 : (pyLower inp).headD ' ' ∈ st.guessed
    · rw [turn, if_neg h1, if_pos h2] at h
      exact TurnResult.noConfusion h
    · by_cases h3 : st.words = []
      · rw [turn, if_neg h1, if_neg h2, if_pos h3] at h
        exact TurnResult.noConfusion h
      · rw [turn, if_neg h1, if_neg h2, if_neg h3] at h
        injection h with e1 e2 e3 e4
        subst e2
        exact ⟨eq_singleton_headD ' ' (not_not.mp h1), h2, h3, e3.symm, e4.symm⟩

/-! ### Helper lemmas: running the session loop -/

theorem runSession_cons (s : Session) (inp : Word) (c : Nat)
    (rest : List (Word × Nat)) :
    runSession s ((inp, c) :: rest) =
      if s.game.outcome ≠ none then s
      else
        match turn s.game inp c with
        | .next _ l pat st' => runSession ⟨st', s.recs ++ [(l, pat)]⟩ rest
        | .crash => s
        | .tooLong => runSession s rest
        | .already => runSession s rest := rfl

theorem runSession_terminal {s : Session} (h : s.game.outcome ≠ none) :
    ∀ L, runSession s L = s := by
  intro L
  cases L with
  | nil => rfl
  | cons p rest =>
    obtain ⟨inp, c⟩ := p
    rw [runSession_cons, if_pos h]

/-- Every property preserved by accepted turns holds in every reachable
session state. -/
theorem runSession_inv (P : Session → Prop)
    (hstep : ∀ (s : Session) (inp : Word) (c : Nat) (hit : Bool) (l : Char)
      (pat : Pattern) (st' : GameState), P s →
      turn s.game inp c = .next hit l pat st' → P ⟨st', s.recs ++ [(l, pat)]⟩) :
    ∀ (L : List (Word × Nat)) (s : Session), P s → P (runSession s L) := by
  intro L
  induction L with
  | nil => intro s hs; exact hs
  | cons p rest ih =>
    intro s hs
    obtain ⟨inp, c⟩ := p
    rw [runSession_cons]
    by_cases ho : s.game.outcome ≠ none
    · rw [if_pos ho]; exact hs
    · rw [if_neg ho]
      cases ht : turn s.game inp c with
      | next hit l pat st' => exact ih _ (hstep s inp c hit l pat st' hs ht)
      | crash => exact hs
      | tooLong => exact ih s hs
      | already => exact ih s hs

/-! ### The claims -/

/-- Claim C1, evaluated on the code at the failing input: for candidates
FOO, OFF, MOO, ORE, CAT, DOG and letter `o`, the list handed to
`random.choice` contains BOTH largest families — `sorted` only reorders the
largest families by occurrence count, it never restricts to the minimal
ones — so the draw with index 1 returns the family FOO, MOO with two
occurrence positions, not the deterministic winner OFF, ORE the claim (and
the comment on line 104 of hangman.py) require. -/
theorem tie_break_draws_from_all_largest_groups :
    updateWordsChoices 'o' exWords = [([0], [wOFF, wORE]), ([1, 2], [wFOO, wMOO])] ∧
    updateWords 'o' exWords 1 = ([1, 2], [wFOO, wMOO]) ∧
    (updateWords 'o' exWords 1).2 ≠ [wOFF, wORE] := by decide

/-- Claim C2: for a non-empty candidate list, the group returned by
`update_words` is exactly a cell of the occurrence-pattern partition (all
its words have the guessed letter at the same positions, namely the returned
pattern), and no family's size exceeds the returned group's size, so a
smaller group is never preferred over a strictly larger one. -/
theorem updateWords_cell_and_maximal (ltr : Char) (ws : List Word) (c : Nat)
    (h : ws ≠ []) :
    (updateWords ltr ws c).2 = family ltr ws (updateWords ltr ws c).1 ∧
    (∀ w ∈ (updateWords ltr ws c).2,
      w ∈ ws ∧ occIdxs ltr w = (updateWords ltr ws c).1) ∧
    (∀ f ∈ families ltr ws, f.2.length ≤ (updateWords ltr ws c).2.length) := by
  obtain ⟨hk, hfam, hlen⟩ := updateWords_spec c h
  refine ⟨hfam, ?_, ?_⟩
  · intro w hw
    rw [hfam, mem_family] at hw
    exact hw
  · intro f hf
    rw [hlen]
    exact length_le_longestFamLen hf

theorem updateWords_cell_and_maximal_witness :
    ([wCAT] : List Word) ≠ [] ∧
    ((updateWords 'a' [wCAT] 0).2 = family 'a' [wCAT] (updateWords 'a' [wCAT] 0).1 ∧
     (∀ w ∈ (updateWords 'a' [wCAT] 0).2,
       w ∈ [wCAT] ∧ occIdxs 'a' w = (updateWords 'a' [wCAT] 0).1) ∧
     (∀ f ∈ families 'a' [wCAT], f.2.length ≤ (updateWords 'a' [wCAT] 0).2.length)) :=
  ⟨by decide, updateWords_cell_and_maximal 'a' [wCAT] 0 (by decide)⟩

/-- Claim C3: starting from a non-empty candidate list, every reachable
session state has a non-empty candidate list; equivalently, `update_words`
returns a non-empty list on every non-empty input and any letter/draw. -/
theorem candidate_set_nonempty (ws : List Word) (n : Int) (L : List (Word × Nat))
    (h : ws ≠ []) :
    (runSession (initSession ws n) L).game.words ≠ [] ∧
    ∀ (ws' : List Word) (ltr : Char) (c : Nat), ws' ≠ [] →
      (updateWords ltr ws' c).2 ≠ [] := by
  constructor
  · apply runSession_inv (fun s => s.game.words ≠ [])
    · intro s inp c hit l pat st' hs ht
      obtain ⟨_, _, hw, _, hst'⟩ := turn_next_inv ht
      show st'.words ≠ []
      rw [hst', applyGuess_words]
      exact updateWords_snd_ne_nil c hw
    · exact h
  · intro ws' ltr c hw
    exact updateWords_snd_ne_nil c hw

theorem candidate_set_nonempty_witness :
    ([wCAT] : List Word) ≠ [] ∧
    ((runSession (initSession [wCAT] 1) []).game.words ≠ [] ∧
     ∀ (ws' : List Word) (ltr : Char) (c : Nat), ws' ≠ [] →
       (updateWords ltr ws' c).2 ≠ []) :=
  ⟨by decide, candidate_set_nonempty [wCAT] 1 [] (by decide)⟩

/-- Claim C4: in every reachable session state, the guessed letters are
exactly the recorded ones, and every remaining candidate word carries every
recorded guessed letter at exactly the occurrence positions recorded when
that letter was guessed (and nowhere else). -/
theorem candidates_consistent_with_guesses (ws : List Word) (n : Int)
    (L : List (Word × Nat)) :
    (runSession (initSession ws n) L).game.guessed =
      (runSession (initSession ws n) L).recs.map Prod.fst ∧
    Consistent (runSession (initSession ws n) L) := by
  apply runSession_inv
    (fun s => s.game.guessed = s.recs.map Prod.fst ∧ Consistent s)
  · intro s inp c hit l pat st' hs ht
    obtain ⟨_, _, hw, hpat, hst'⟩ := turn_next_inv ht
    obtain ⟨hk, hfam, _⟩ := @updateWords_spec l s.game.words c hw
    constructor
    · show st'.guessed = _
      rw [hst', applyGuess_guessed, hs.1]
      simp
    · intro r hr w hwmem
      have hw' : w ∈ (updateWords l s.game.words c).2 := by
        rw [← applyGuess_words s.game l c, ← hst']
        exact hwmem
      rw [hfam, mem_family] at hw'
      rcases List.mem_append.mp hr with hr | hr
      · exact hs.2 r hr w hw'.1
      · have hrl : r = (l, pat) := by simpa using hr
        rw [hrl]
        show occIdxs l w = pat
        rw [hpat]
        exact hw'.2
  · exact ⟨rfl, fun r hr => absurd hr (List.not_mem_nil r)⟩

/-- Claim C5: an accepted turn never grows the candidate list (the new list
is a subset of the old one), and it strictly shrinks it whenever the pattern
partition of the old list had more than one group. -/
theorem accepted_turn_shrinks (st : GameState) (inp : Word) (c : Nat) (hit : Bool)
    (l : Char) (pat : Pattern) (st' : GameState)
    (h : turn st inp c = .next hit l pat st') :
    st'.words ⊆ st.words ∧ st'.words.length ≤ st.words.length ∧
    (1 < (families l st.words).length → st'.words.length < st.words.length) := by
  obtain ⟨_, _, hw, _, hst'⟩ := turn_next_inv h
  obtain ⟨hk, hfam, _⟩ := @updateWords_spec l st.words c hw
  rw [hst', applyGuess_words]
  refine ⟨?_, ?_, ?_⟩
  · rw [hfam]
    exact (family_sublist l st.words _).subset
  · rw [hfam]
    exact (family_sublist l st.words _).length_le
  · intro hmany
    exact updateWords_length_lt c hw hmany

theorem accepted_turn_shrinks_witness :
    turn ⟨[wCAT, wDOG], [], 5, none⟩ ['a'] 0 =
      .next false 'a' [] ⟨[wDOG], ['a'], 4, none⟩ ∧
    (([wDOG] : List Word) ⊆ [wCAT, wDOG] ∧
     ([wDOG] : List Word).length ≤ ([wCAT, wDOG] : List Word).length ∧
     (1 < (families 'a' [wCAT, wDOG]).length →
       ([wDOG] : List Word).length < ([wCAT, wDOG] : List Word).length)) :=
  ⟨by decide,
   accepted_turn_shrinks ⟨[wCAT, wDOG], [], 5, none⟩ ['a'] 0 false 'a' []
     ⟨[wDOG], ['a'], 4, none⟩ (by decide)⟩

/-- Claim C10: a session started with `nguesses_left = 0` can never reach
the Lost outcome: a miss decrements the counter below zero and the loss
test compares with equality to zero, which never holds again. -/
theorem zero_guesses_lost_unreachable (ws : List Word) (L : List (Word × Nat)) :
    (runSession (initSession ws 0) L).game.nleft ≤ 0 ∧
    (runSession (initSession ws 0) L).game.outcome ≠ some false := by
  apply runSession_inv (fun s => s.game.nleft ≤ 0 ∧ s.game.outcome ≠ some false)
  · intro s inp c hit l pat st' hs ht
    obtain ⟨_, _, _, _, hst'⟩ := turn_next_inv ht
    show st'.nleft ≤ 0 ∧ st'.outcome ≠ some false
    rw [hst']
    exact applyGuess_nleft_outcome s.game l c hs.1
  · exact ⟨le_refl 0, by simp [initSession]⟩

/-- Claim C6, counterexample: `play` validates only the input's length, not
that it is alphabetic.  The single digit `5` is accepted as a guess: it is
added to the guessed letters, the candidate list is re-partitioned, and —
being a guaranteed miss — it consumes a turn, so the state changes. -/
theorem single_digit_guess_accepted :
    turn ⟨[wCAT], [], 10, none⟩ ['5'] 0 =
      .next false '5' [] ⟨[wCAT], ['5'], 9, none⟩ ∧
    (⟨[wCAT], ['5'], 9, none⟩ : GameState) ≠ ⟨[wCAT], [], 10, none⟩ := by decide

/-- Claim C6 as amended: the loop rejects, with no state change and no turn
consumed, exactly the inputs whose lowercased form is not a single character
and the already-guessed letters, with distinct results for the two reasons;
single non-alphabetic characters are NOT rejected. -/
theorem invalid_input_rejected (st : GameState) (inp : Word) (c : Nat) :
    ((pyLower inp).length ≠ 1 → turn st inp c = .tooLong) ∧
    (∀ l : Char, pyLower inp = [l] → l ∈ st.guessed → turn st inp c = .already) ∧
    (∀ (recs : List (Char × Pattern)) (rest : List (Word × Nat)),
      turn st inp c = .tooLong ∨ turn st inp c = .already →
      runSession ⟨st, recs⟩ ((inp, c) :: rest) = runSession ⟨st, recs⟩ rest) := by
  refine ⟨?_, ?_, ?_⟩
  · intro h1
    rw [turn, if_pos h1]
  · intro l hl hg
    rw [turn, hl]
    have h1 : ¬(([l] : Word).length ≠ 1) := by simp
    rw [if_neg h1, show ([l] : Word).headD ' ' = l from rfl, if_pos hg]
  · intro recs rest hrej
    rw [runSession_cons]
    by_cases ho : (⟨st, recs⟩ : Session).game.outcome ≠ none
    · rw [if_pos ho, runSession_terminal ho rest]
    · rw [if_neg ho]
      rcases hrej with hr | hr <;> rw [hr]

theorem invalid_input_rejected_witness :
    turn ⟨[wCAT], [], 10, none⟩ ['o', 'k'] 0 = .tooLong ∧
    turn ⟨[wCAT], ['c'], 10, none⟩ ['c'] 0 = .already ∧
    runSession ⟨⟨[wCAT], [], 10, none⟩, []⟩ [(['o', 'k'], 0)] =
      runSession ⟨⟨[wCAT], [], 10, none⟩, []⟩ [] :=
  ⟨(invalid_input_rejected ⟨[wCAT], [], 10, none⟩ ['o', 'k'] 0).1 (by decide),
   (invalid_input_rejected ⟨[wCAT], ['c'], 10, none⟩ ['c'] 0).2.1 'c'
     (by decide) (by decide),
   (invalid_input_rejected ⟨[wCAT], [], 10, none⟩ ['o', 'k'] 0).2.2 [] []
     (Or.inl ((invalid_input_rejected ⟨[wCAT], [], 10, none⟩ ['o', 'k'] 0).1
       (by decide)))⟩

/-- Claim C7, counterexample: `get_words` performs no emptiness check.  With
a dictionary whose filtered list for the requested length is empty, the
session still starts normally (no error, outcome `none`), and the failure
only surfaces during the first accepted guess, where `update_words` raises
`ValueError` (`max()` over an empty sequence) — modelled as `crash`. -/
theorem no_words_available_check_missing :
    get_words 5 [wCAT] = [] ∧
    (initSession (get_words 5 [wCAT]) 10).game.outcome = none ∧
    turn (initSession (get_words 5 [wCAT]) 10).game ['a'] 0 = .crash := by decide

/-- Claim C7 as amended: when the length-filtered dictionary is empty, no
`NoWordsAvailable` condition is signalled before play; the session starts
normally and every well-formed first guess crashes inside `update_words`. -/
theorem empty_filtered_list_crashes_in_first_turn (raw : List Word)
    (wordLen : Nat) (n : Int) (inp : Word) (c : Nat)
    (hempty : get_words wordLen raw = []) (hlen : (pyLower inp).length = 1) :
    (initSession (get_words wordLen raw) n).game.outcome = none ∧
    turn (initSession (get_words wordLen raw) n).game inp c = .crash := by
  refine ⟨rfl, ?_⟩
  rw [turn, if_neg (fun hne => hne hlen)]
  have hg : (pyLower inp).headD ' ' ∉
      (initSession (get_words wordLen raw) n).game.guessed := by
    simp [initSession]
  rw [if_neg hg]
  have hwords : (initSession (get_words wordLen raw) n).game.words = [] := hempty
  rw [if_pos hwords]

theorem empty_filtered_list_crashes_in_first_turn_witness :
    get_words 5 [wCAT] = ([] : List Word) ∧ (pyLower ['a']).length = 1 ∧
    ((initSession (get_words 5 [wCAT]) 7).game.outcome = none ∧
     turn (initSession (get_words 5 [wCAT]) 7).game ['a'] 0 = .crash) :=
  ⟨by decide, by decide,
   empty_filtered_list_crashes_in_first_turn [wCAT] 5 7 ['a'] 0
     (by decide) (by decide)⟩

/-- Claim C8: when the guessed letter occurs in no candidate word, the
partition has exactly one family — the empty pattern covering the whole
candidate list — `update_words` returns the candidate list unchanged, and
the accepted turn is a miss that decrements the guess counter by one. -/
theorem missed_letter_single_group (st : GameState) (ltr : Char) (c : Nat)
    (hw : st.words ≠ []) (hno : ∀ w ∈ st.words, ltr ∉ w)
    (hl : ltr.toLower = ltr) (hg : ltr ∉ st.guessed) :
    families ltr st.words = [([], st.words)] ∧
    updateWords ltr st.words c = ([], st.words) ∧
    turn st [ltr] c = .next false ltr []
      { words := st.words, guessed := st.guessed ++ [ltr],
        nleft := st.nleft - 1,
        outcome := if st.nleft - 1 = 0 then some false else none } := by
  have hkeys : familyKeys ltr st.words = [[]] := by
    rw [familyKeys]
    apply dedupFirst_const
    · intro x hx
      rw [List.mem_map] at hx
      obtain ⟨w, hwm, hwe⟩ := hx
      rw [← hwe, occIdxs_eq_nil_iff]
      exact hno w hwm
    · simp [hw]
  have hfamily : family ltr st.words [] = st.words := by
    rw [family, List.filter_eq_self]
    intro w hwm
    simp [occIdxs_eq_nil_iff, hno w hwm]
  have hfams : families ltr st.words = [([], st.words)] := by
    rw [families, hkeys]
    simp [hfamily]
  have hupd : updateWords ltr st.words c = ([], st.words) := by
    have hlong : longestFamLen ltr st.words = st.words.length := by
      rw [longestFamLen, hfams]
      simp
    have hlf : longestFams ltr st.words = [([], st.words)] := by
      rw [longestFams, hfams, hlong]
      simp
    have hch : updateWordsChoices ltr st.words = [([], st.words)] := by
      rw [updateWordsChoices, hlf]
      rfl
    rw [updateWords, hch]
    simp [Nat.mod_one]
  have hupd1 : (updateWords ltr st.words c).1 = [] := by rw [hupd]
  have hupd2 : (updateWords ltr st.words c).2 = st.words := by rw [hupd]
  have hmem : ltr ∉ st.words.headD [] := by
    cases hws : st.words with
    | nil => exact absurd hws hw
    | cons a t => exact hno a (by rw [hws]; simp)
  refine ⟨hfams, hupd, ?_⟩
  have happly : applyGuess st ltr c =
      { words := st.words, guessed := st.guessed ++ [ltr],
        nleft := st.nleft - 1,
        outcome := if st.nleft - 1 = 0 then some false else none } := by
    unfold applyGuess
    rw [hupd2, if_neg hmem]
  have hlow : pyLower [ltr] = [ltr] := by simp [pyLower, hl]
  rw [turn, hlow]
  have h1 : ¬(([ltr] : Word).length ≠ 1) := by simp
  rw [if_neg h1, show ([ltr] : Word).headD ' ' = ltr from rfl,
    if_neg hg, if_neg hw, hupd1, hupd2, happly,
    decide_eq_false hmem]

theorem missed_letter_single_group_witness :
    families 'z' [wCAT] = [([], [wCAT])] ∧
    updateWords 'z' [wCAT] 0 = ([], [wCAT]) ∧
    turn ⟨[wCAT], [], 2, none⟩ ['z'] 0 =
      .next false 'z' [] ⟨[wCAT], ['z'], 1, none⟩ :=
  missed_letter_single_group ⟨[wCAT], [], 2, none⟩ 'z' 0
    (by decide) (by decide) (by decide) (by decide)

/-- Claim C9: re-submitting an already guessed letter is rejected: the loop
answers `already` and continues with the session (guessed letters,
candidate list and remaining-guess counter) completely unchanged, consuming
no turn. -/
theorem repeat_guess_rejected (s : Session) (inp : Word) (l : Char) (c : Nat)
    (rest : List (Word × Nat))
    (h1 : pyLower inp = [l]) (h2 : l ∈ s.game.guessed) :
    turn s.game inp c = .already ∧
    runSession s ((inp, c) :: rest) = runSession s rest := by
  have hturn : turn s.game inp c = .already := by
    rw [turn, h1]
    have hne : ¬(([l] : Word).length ≠ 1) := by simp
    rw [if_neg hne, show ([l] : Word).headD ' ' = l from rfl, if_pos h2]
  refine ⟨hturn, ?_⟩
  rw [runSession_cons]
  by_cases ho : s.game.outcome ≠ none
  · rw [if_pos ho, runSession_terminal ho rest]
  · rw [if_neg ho, hturn]

theorem repeat_guess_rejected_witness :
    turn (⟨[wCAT], ['c'], 10, none⟩ : GameState) ['c'] 0 = .already ∧
    runSession ⟨⟨[wCAT], ['c'], 10, none⟩, []⟩ [(['c'], 0)] =
      runSession ⟨⟨[wCAT], ['c'], 10, none⟩, []⟩ [] :=
  repeat_guess_rejected ⟨⟨[wCAT], ['c'], 10, none⟩, []⟩ ['c'] 'c' 0 []
    (by decide) (by decide)

end EvilHangman
